import Mathlib

/-!
Verification of the tabular-data normalization and aggregation pipeline of
`src/app.py` (a Streamlit investment dashboard).  The Python functions are
shallowly embedded: strings become `List Char`, Python `float` values become
an inductive `PyFloat` over `ℚ` (with distinguished infinity/NaN points),
dynamically-typed cell values become the inductive `PyVal`, and the
pipeline stages (header normalizer, fuzzy column resolver, value coercer,
aggregator, transaction row builder) become executable Lean functions that
mirror the source.  IEEE-754 rounding is abstracted by exact rational
arithmetic; parsing is split into a rational-free front end and a final
evaluation step so that concrete runs stay kernel-computable.
-/


/-- A Python string, viewed as its list of characters. -/
abbrev Str := List Char

/-- Whitespace in the sense of Python's `str.strip()` / the regex class
backslash-s in Unicode mode: ASCII whitespace plus the Unicode space
separators and the file/group/record/unit separator controls. -/
def isPySpace (c : Char) : Bool :=
  let n := c.toNat
  n == 0x20 || (0x09 ≤ n && n ≤ 0x0d) || (0x1c ≤ n && n ≤ 0x1f) ||
  n == 0x85 || n == 0xa0 || n == 0x1680 || (0x2000 ≤ n && n ≤ 0x200a) ||
  n == 0x2028 || n == 0x2029 || n == 0x202f || n == 0x205f || n == 0x3000

/-- Python `s.strip()`: drop whitespace from both ends. -/
def pyStrip (s : Str) : Str :=
  ((s.dropWhile isPySpace).reverse.dropWhile isPySpace).reverse

/-- Decimal digit character test (`0`-`9`). -/
def isDigitCh (c : Char) : Bool :=
  0x30 ≤ c.toNat && c.toNat ≤ 0x39

/-- Numeric value of a decimal digit character. -/
def digitVal (c : Char) : ℕ := c.toNat - 48

/-- Value of a big-endian decimal digit string (Horner's rule). -/
def digitsToNat (s : Str) : ℕ := s.foldl (fun a c => 10 * a + digitVal c) 0

/-- Every character of the string is a decimal digit. -/
def allDigits (s : Str) : Bool := s.all isDigitCh

/-- Characters before the first one satisfying `p` (the whole string if
none does). -/
def takeUntil (p : Char → Bool) : Str → Str
  | [] => []
  | c :: t => if p c then [] else c :: takeUntil p t

/-- The first character satisfying `p` and everything after it (empty if
none does). -/
def dropUntil (p : Char → Bool) : Str → Str
  | [] => []
  | c :: t => if p c then c :: t else dropUntil p t

/-- The decimal point. -/
def isDotCh (c : Char) : Bool := c == '.'

/-- The exponent marker of a float literal. -/
def isExpCh (c : Char) : Bool := c == 'e' || c == 'E'

/-- The result of Python's `float(...)`: a finite rational, one of the two
infinities, or NaN. -/
inductive PyFloat where
  | finite : ℚ → PyFloat
  | inf : PyFloat
  | ninf : PyFloat
  | nan : PyFloat
deriving DecidableEq

/-- A parsed-but-not-yet-evaluated `float(...)` result: a sign together
with mantissa digits, count of fractional digits and decimal exponent, or
a signed infinity, or NaN. -/
inductive RawFloat where
  | rfin : Bool → ℕ → ℕ → ℤ → RawFloat
  | rinf : Bool → RawFloat
  | rnan : RawFloat
deriving DecidableEq

/-- Scale a rational by a (possibly negative) power of ten, as the decimal
exponent of a float literal does. -/
def applyExp (q : ℚ) (e : ℤ) : ℚ :=
  if 0 ≤ e then q * (10 : ℚ) ^ e.toNat else q / (10 : ℚ) ^ (-e).toNat

/-- The exact rational value denoted by a parsed float literal. -/
def realizeRaw : RawFloat → PyFloat
  | .rfin neg v f e => .finite ((if neg then -1 else 1) * applyExp (v : ℚ) (e - (f : ℤ)))
  | .rinf neg => if neg then .ninf else .inf
  | .rnan => .nan

/-- Parse the exponent part of a float literal (after the `e`): an optional
sign followed by a nonempty digit string. -/
def parseExpPart (s : Str) : Option ℤ :=
  match s with
  | [] => none
  | '+' :: t => if t ≠ [] && allDigits t then some ((digitsToNat t : ℤ)) else none
  | '-' :: t => if t ≠ [] && allDigits t then some (-(digitsToNat t : ℤ)) else none
  | _ => if allDigits s then some ((digitsToNat s : ℤ)) else none

/-- Parse the mantissa of a float literal: digits with an optional decimal
point, at least one digit overall.  Returns the digits' value together with
the number of fractional digits. -/
def parseMant (s : Str) : Option (ℕ × ℕ) :=
  let ip := takeUntil isDotCh s
  match dropUntil isDotCh s with
  | [] => if ip ≠ [] && allDigits ip then some (digitsToNat ip, 0) else none
  | _ :: fp =>
    if allDigits ip && allDigits fp && !(ip.isEmpty && fp.isEmpty) then
      some (digitsToNat (ip ++ fp), fp.length)
    else none

/-- Parse an unsigned decimal float literal — mantissa with optional
exponent — into mantissa value, fraction length and exponent. -/
def parseDecimalRaw (s : Str) : Option (ℕ × ℕ × ℤ) :=
  let mant := takeUntil isExpCh s
  match dropUntil isExpCh s with
  | [] => (parseMant mant).map (fun v => (v.1, v.2, 0))
  | _ :: epart =>
    match parseMant mant, parseExpPart epart with
    | some v, some e => some (v.1, v.2, e)
    | _, _ => none

/-- Scan for CPython's underscore rule in numeric literals: every `_` must
be immediately preceded and followed by a digit.  `prev` is the previous
character. -/
def uScan (prev : Char) : Str → Bool
  | [] => true
  | c :: rest =>
    if c = '_' then
      match rest with
      | [] => false
      | d :: _ => isDigitCh prev && isDigitCh d && uScan c rest
    else uScan c rest

/-- CPython accepts underscores in `float(...)` input only between two
digits. -/
def underscoresOk : Str → Bool
  | [] => true
  | c :: rest => if c = '_' then false else uScan c rest

/-- The sign-stripped tail of Python `float(...)` parsing: a decimal
literal, or (case-insensitively) `inf` / `infinity` / `nan`. -/
def parseSignedRaw (s : Str) (neg : Bool) : Option RawFloat :=
  match parseDecimalRaw s with
  | some v => some (.rfin neg v.1 v.2.1 v.2.2)
  | none =>
    let low := s.map Char.toLower
    if low = "inf".data || low = "infinity".data then some (.rinf neg)
    else if low = "nan".data then some .rnan
    else none

/-- Start code points of the aligned runs of ten Unicode decimal-digit
characters (Numeric_Type=Decimal, i.e. category Nd), extracted from the
Unicode data of the CPython in use (3.11): ASCII, Arabic-Indic, extended
Arabic-Indic, the Indic and South-East-Asian scripts, fullwidth digits,
the supplementary-plane scripts and the mathematical digit runs.  Each
run holds the digits 0-9 at consecutive code points. -/
def unicodeDigitStarts : List ℕ :=
  [0x30, 0x660, 0x6f0, 0x7c0, 0x966, 0x9e6, 0xa66, 0xae6, 0xb66, 0xbe6,
   0xc66, 0xce6, 0xd66, 0xde6, 0xe50, 0xed0, 0xf20, 0x1040, 0x1090, 0x17e0,
   0x1810, 0x1946, 0x19d0, 0x1a80, 0x1a90, 0x1b50, 0x1bb0, 0x1c40, 0x1c50,
   0xa620, 0xa8d0, 0xa900, 0xa9d0, 0xa9f0, 0xaa50, 0xabf0, 0xff10, 0x104a0,
   0x10d30, 0x11066, 0x110f0, 0x11136, 0x111d0, 0x112f0, 0x11450, 0x114d0,
   0x11650, 0x116c0, 0x11730, 0x118e0, 0x11950, 0x11c50, 0x11d50, 0x11da0,
   0x16a60, 0x16ac0, 0x16b50, 0x1d7ce, 0x1d7d8, 0x1d7e2, 0x1d7ec, 0x1d7f6,
   0x1e140, 0x1e2f0, 0x1e950, 0x1fbf0]

/-- `Py_UNICODE_TODECIMAL`: the decimal value of a Unicode decimal-digit
character, if it is one. -/
def unicodeDigitVal (c : Char) : Option ℕ :=
  (unicodeDigitStarts.find? (fun s => decide (s ≤ c.toNat) && decide (c.toNat < s + 10))).map
    (fun s => c.toNat - s)

/-- CPython's `_PyUnicode_TransformDecimalAndSpaceToASCII`, applied by
`float(...)` before parsing: Unicode whitespace becomes the ASCII space,
a Unicode decimal digit becomes the corresponding ASCII digit, any other
ASCII character passes through, and any other character becomes `?`
(which then fails the numeric parse). -/
def pyDecimalTransform (c : Char) : Char :=
  if isPySpace c then ' '
  else
    match unicodeDigitVal c with
    | some d => Char.ofNat (d + 48)
    | none => if c.toNat < 128 then c else '?'

/-- Python `float(s)` parsing, up to (but not including) evaluation of the
digits into a rational: transform Unicode digits and spaces to ASCII,
strip surrounding whitespace, validate and remove digit-grouping
underscores, read an optional sign, then parse a decimal literal or an
infinity/NaN word.  `none` models a raised `ValueError`. -/
def pyFloatParseRaw (s0 : Str) : Option RawFloat :=
  let s1 := pyStrip (s0.map pyDecimalTransform)
  if underscoresOk s1 then
    match s1.filter (fun c => c ≠ '_') with
    | [] => none
    | '+' :: rest => parseSignedRaw rest false
    | '-' :: rest => parseSignedRaw rest true
    | s => parseSignedRaw s false
  else none

/-- Python `float(s)` on a string: parse, then evaluate to a value. -/
def pyFloatParse (s0 : Str) : Option PyFloat :=
  (pyFloatParseRaw s0).map realizeRaw

/-- A dynamically-typed spreadsheet cell value as Python sees it:
`int`, `float`, `bool` (a subtype of `int` in Python), `str`, or any other
object (modelled by `None`). -/
inductive PyVal where
  | intV : ℤ → PyVal
  | floatV : PyFloat → PyVal
  | boolV : Bool → PyVal
  | strV : Str → PyVal
  | noneV : PyVal

/-- The character class removed by `re.sub(r'[$,\x5cs]', '', val)` in
`clean_currency_value`: the dollar sign, the comma, and whitespace. -/
def isStrippedCh (c : Char) : Bool := c == '$' || c == ',' || isPySpace c

/-- Remove every `$`, `,` and whitespace character, anywhere in the
string (`re.sub` replaces all occurrences). -/
def stripMoney (s : Str) : Str := s.filter (fun c => !(isStrippedCh c))

/-- `clean_currency_value` (src/app.py lines 25-36).  The first branch,
`isinstance(val, (int, float))`, returns the input unchanged as a float;
Python's `bool` is a subtype of `int`, so booleans take this branch too
(`float(True) = 1.0`, `float(False) = 0.0`).  A string has `$`, `,` and
whitespace removed everywhere and the residual passed to `float(...)`,
a `ValueError` degrading to `0.0`.  Any other input returns `0.0`. -/
def clean_currency_value : PyVal → PyFloat
  | .intV n => .finite (n : ℚ)
  | .floatV f => f
  | .boolV b => .finite (if b then 1 else 0)
  | .strV s =>
    match pyFloatParse (stripMoney s) with
    | some f => f
    | none => .finite 0
  | .noneV => .finite 0

/-- `leadsWith needle hay`: the needle occurs at the very start of the
haystack. -/
def leadsWith : Str → Str → Bool
  | [], _ => true
  | _ :: _, [] => false
  | a :: as, b :: bs => a == b && leadsWith as bs

/-- Python's substring test `needle in hay`: the needle occurs contiguously
somewhere in the haystack. -/
def pyIn (needle : Str) : Str → Bool
  | [] => needle.isEmpty
  | c :: t => leadsWith needle (c :: t) || pyIn needle t

/-- Matching rule of the currency column (src/app.py line 72):
`"幣別" in c or "Currency" in c`. -/
def currPred (h : Str) : Bool := pyIn "幣別".data h || pyIn "Currency".data h

/-- Matching rule of the value column (line 74):
`"總現值" in c and "含息" in c`. -/
def valPred (h : Str) : Bool := pyIn "總現值".data h && pyIn "含息".data h

/-- Matching rule of the profit column (line 75):
`"損益" in c and "含息" in c`. -/
def profitPred (h : Str) : Bool := pyIn "損益".data h && pyIn "含息".data h

/-- Matching rule of the name column (line 76): `"基金名稱" in c`. -/
def namePred (h : Str) : Bool := pyIn "基金名稱".data h

/-- Index of the first header matching `p`, scanning left to right from
index `i` — the position of `[c for c in columns if p(c)][0]`. -/
def findFirstIdx (p : Str → Bool) : List Str → ℕ → Option ℕ
  | [], _ => none
  | h :: t, i => if p h then some i else findFirstIdx p t (i + 1)

/-- The four logical column roles the summary view must bind. -/
inductive Role where
  | currency | value | profit | name
deriving DecidableEq

/-- The bound column headers of the summary view, in the order the code
resolves them. -/
structure ResolvedCols where
  curr : Str
  val : Str
  profitCol : Str
  nameCol : Str
deriving DecidableEq

/-- What the `except IndexError` handler at src/app.py lines 142-144 shows
the user: a fixed message and the list of available headers. -/
structure DisplayedError where
  message : Str
  headers : List Str
deriving DecidableEq

/-- The fixed error text of line 143.  (The single-quote characters around
the sheet name are spliced in by code point to keep the embedding
printable.) -/
def fieldErrorMessage : Str :=
  "欄位識別失敗：請確認 Google Sheet ".data ++ [Char.ofNat 39] ++ "總和".data ++
    [Char.ofNat 39] ++ " 分頁中是否包含 [幣別, 總現值(含息), 損益(含息), 基金名稱] 等欄位。".data

/-- The fuzzy column resolution of src/app.py lines 70-76: four independent
first-match scans, run in source order (currency, value, profit, name);
the first scan whose comprehension is empty raises `IndexError`, which the
handler at lines 142-144 turns into the fixed message plus the header
list. -/
def resolveColumns (headers : List Str) : Except DisplayedError ResolvedCols :=
  match headers.find? currPred with
  | none => .error ⟨fieldErrorMessage, headers⟩
  | some c =>
    match headers.find? valPred with
    | none => .error ⟨fieldErrorMessage, headers⟩
    | some v =>
      match headers.find? profitPred with
      | none => .error ⟨fieldErrorMessage, headers⟩
      | some p =>
        match headers.find? namePred with
        | none => .error ⟨fieldErrorMessage, headers⟩
        | some n => .ok ⟨c, v, p, n⟩

/-- The role whose scan is the first (in source order) to find no matching
header — the role whose comprehension raises the `IndexError`. -/
def firstUnboundRole (headers : List Str) : Option Role :=
  if headers.find? currPred = none then some .currency
  else if headers.find? valPred = none then some .value
  else if headers.find? profitPred = none then some .profit
  else if headers.find? namePred = none then some .name
  else none

/-- One cleaned row of the summary sheet: name text, coerced value and
profit, canonicalized currency code. -/
structure SummaryRecord where
  name : Str
  value : ℚ
  profit : ℚ
  currency : Str
deriving DecidableEq

/-- `df_curr[val_col].sum()` over a record list. -/
def total_assets (recs : List SummaryRecord) : ℚ := (recs.map SummaryRecord.value).sum

/-- `df_curr[profit_col].sum()` over a record list. -/
def total_profit (recs : List SummaryRecord) : ℚ := (recs.map SummaryRecord.profit).sum

/-- `total_cost = total_assets - total_profit` (src/app.py line 101). -/
def total_cost (recs : List SummaryRecord) : ℚ := total_assets recs - total_profit recs

/-- `roi = (total_profit / total_cost * 100) if total_cost != 0 else 0`
(src/app.py line 102). -/
def roi (recs : List SummaryRecord) : ℚ :=
  if total_cost recs ≠ 0 then total_profit recs / total_cost recs * 100 else 0

/-- Modelled from the spec (section 3, CurrencyGroup): `derivedReturnRatio
= totalProfit / (totalValue − totalProfit)` when the denominator is
non-zero, else the sentinel zero.  Stated for comparison with `roi`. -/
def derivedReturnRatioSpec (recs : List SummaryRecord) : ℚ :=
  if total_assets recs - total_profit recs ≠ 0 then
    total_profit recs / (total_assets recs - total_profit recs)
  else 0

/-- pandas `Series.unique()`: the distinct values in order of first
appearance.  `seen` accumulates values already emitted. -/
def pandasUniqueAux (seen : List Str) : List Str → List Str
  | [] => []
  | c :: rest =>
    if c ∈ seen then pandasUniqueAux seen rest
    else c :: pandasUniqueAux (c :: seen) rest

/-- `df_summary[curr_col].unique()` (src/app.py line 88). -/
def uniqueCurrencies (recs : List SummaryRecord) : List Str :=
  pandasUniqueAux [] (recs.map SummaryRecord.currency)

/-- `df_summary[df_summary[curr_col] == currency]` (line 95): the rows of
one currency group, in original order. -/
def currencyGroup (recs : List SummaryRecord) (c : Str) : List SummaryRecord :=
  recs.filter (fun r => r.currency = c)

/-- numpy's insertion step (the small-array branch of its quicksort):
shift while strictly smaller, so the new element lands after every element
with a less-or-equal key — a stable ascending insert on the profit key. -/
def insertAsc (x : SummaryRecord) : List SummaryRecord → List SummaryRecord
  | [] => [x]
  | y :: t => if x.profit < y.profit then x :: y :: t else y :: insertAsc x t

/-- Ascending sort on the profit key by left-to-right insertion.  numpy's
`argsort` with the default `quicksort` kind runs exactly this stable
insertion sort on arrays of at most 16 elements; on longer arrays the
kind carries no stability guarantee, so this model is exact only in the
small-array regime. -/
def argsortAsc (l : List SummaryRecord) : List SummaryRecord :=
  l.foldl (fun acc x => insertAsc x acc) []

/-- `df_summary.sort_values(by=profit_col, ascending=False)` (src/app.py
line 131): pandas's `nargsort` reverses the values and their indices,
computes the ascending argsort of the reversed values, and reverses the
resulting indexer — the two reversals bracket the ascending sort.  Exact
for frames of at most 16 rows, where the inner argsort is numpy's stable
insertion sort. -/
def sort_values_desc (l : List SummaryRecord) : List SummaryRecord :=
  (argsortAsc l.reverse).reverse

/-- One cell of the transaction row appended to the sheet: text or a
number. -/
inductive Cell where
  | text : Str → Cell
  | num : ℚ → Cell
deriving DecidableEq

/-- The `買入` (buy) transaction category label. -/
def buyLabel : Str := "買入".data

/-- `est_units` (src/app.py lines 212-214): `0.0`, overwritten when
`price > 0` by `(amount - fee) / price` for a buy and `amount / price`
otherwise. -/
def est_units (transType : Str) (price amount fee : ℚ) : ℚ :=
  if 0 < price then
    if transType = buyLabel then (amount - fee) / price else amount / price
  else 0

/-- `new_row` (src/app.py lines 223-225): the 10-field positional row
`[str(date_val), "", trans_type, amount, price, "", fee, "", "", est_units]`. -/
def new_row (dateStr transType : Str) (price amount fee : ℚ) : List Cell :=
  [.text dateStr, .text [], .text transType, .num amount, .num price, .text [],
    .num fee, .text [], .text [], .num (est_units transType price amount fee)]

/-- Digit characters of `n` written in decimal, most significant first,
by repeated division; `fuel` bounds the recursion and any `fuel ≥ n`
is enough.  `natCharsAux fuel 0 = []`. -/
def natCharsAux : ℕ → ℕ → Str
  | 0, _ => []
  | _ + 1, 0 => []
  | fuel + 1, n + 1 =>
    natCharsAux fuel ((n + 1) / 10) ++ [Char.ofNat ((n + 1) % 10 + 48)]

/-- Python `str(n)` for a natural number: its decimal digit string. -/
def natChars (n : ℕ) : Str :=
  if n = 0 then ['0'] else natCharsAux n n

/-- The blank-header placeholder of src/app.py line 174:
`f"空欄_{i}"` for position `i`. -/
def blankName (i : ℕ) : Str := '空' :: '欄' :: '_' :: natChars i

/-- The suffixed name of line 178: `f"{col_name}_{count}"`. -/
def suffixedName (base : Str) (count : ℕ) : Str := base ++ '_' :: natChars count

/-- The header-normalization loop of src/app.py lines 171-182, processing
the raw headers from position `i` with the occurrence dictionary
`header_count` modelled as a map into `Option`.  Each raw header is stripped;
a blank becomes the position-indexed placeholder; a name already in the
dictionary gets its counter bumped and that counter appended, otherwise
the name is recorded with counter zero and kept unchanged. -/
def normalizeAux (i : ℕ) (counts : Str → Option ℕ) : List Str → List Str
  | [] => []
  | h :: rest =>
    let c0 := pyStrip h
    let c1 := if c0 = [] then blankName i else c0
    match counts c1 with
    | some k =>
      suffixedName c1 (k + 1) ::
        normalizeAux (i + 1) (fun s => if s = c1 then some (k + 1) else counts s) rest
    | none =>
      c1 :: normalizeAux (i + 1) (fun s => if s = c1 then some 0 else counts s) rest

/-- The header normalizer: `final_headers` as built from `raw_headers`. -/
def normalizeHeaders (raw : List Str) : List Str :=
  normalizeAux 0 (fun _ => none) raw

/-- Python `float(s)` restricted to finite decimal literals, as an exact
rational: the evaluated form of `parseDecimalRaw`. -/
def parseDecimal (s : Str) : Option ℚ :=
  (parseDecimalRaw s).map (fun v => applyExp (v.1 : ℚ) (v.2.2 - (v.2.1 : ℤ)))

/-- A one-record list on which the code's derived ratio (`roi`, line 102)
differs from the spec's `derivedReturnRatio` formula. -/
def c3Example : List SummaryRecord := [⟨"f".data, 2, 1, "USD".data⟩]

/-- The spec's worked example header row. -/
def exampleHeaders : List Str :=
  ["基金名稱".data, "總現值\n含息".data, "損益\n(含息)".data, "幣別".data]

/-- A usable header name: non-empty, underscore-free, and not the
placeholder stem. -/
def GoodName (s : Str) : Prop := s ≠ [] ∧ '_' ∉ s ∧ s ≠ ['空', '欄']

/-- Invariant of the occurrence dictionary at position `i`: every key is a
good name or the placeholder of an earlier position. -/
def CountsInv (i : ℕ) (counts : Str → Option ℕ) : Prop :=
  ∀ s, (counts s).isSome → GoodName s ∨ ∃ k, k < i ∧ s = blankName k

/-- Shape of an output of the normalizer run from position `i` with
dictionary `counts`: a fresh good name, a suffixed good name whose counter
exceeds the dictionary entry of its base, or a placeholder of position at
least `i`. -/
def OutForm (i : ℕ) (counts : Str → Option ℕ) (o : Str) : Prop :=
  (GoodName o ∧ counts o = none) ∨
  (∃ n k, GoodName n ∧ 1 ≤ k ∧ o = suffixedName n k ∧ ∀ j, counts n = some j → j < k) ∨
  (∃ k, i ≤ k ∧ o = blankName k)

open List

example : pyFloatParseRaw (stripMoney "$1,234.50".data) = some (.rfin false 123450 2 0) := by decide

example : pyFloatParseRaw (stripMoney "-200".data) = some (.rfin true 200 0 0) := by decide

example : pyFloatParseRaw (stripMoney "--".data) = none := by decide

example : pyFloatParseRaw "1_0".data = some (.rfin false 10 0 0) := by decide

example : pyFloatParseRaw "_1".data = none := by decide

example : pyFloatParseRaw "INF".data = some (.rinf false) := by decide

example : pyFloatParseRaw "1.2.3".data = none := by decide

example : pyFloatParseRaw "-1e-2".data = some (.rfin true 1 0 (-2)) := by decide

example : pyFloatParseRaw ".5".data = some (.rfin false 5 1 0) := by decide

example : pyFloatParseRaw "1.".data = some (.rfin false 1 0 0) := by decide

example : pyFloatParseRaw "".data = none := by decide

example : pyFloatParseRaw "+5".data = some (.rfin false 5 0 0) := by decide

example : pyFloatParseRaw "1e2e3".data = none := by decide

example : clean_currency_value (.strV "$1,234.50".data) = .finite (2469 / 2) := by
  have h : pyFloatParseRaw (stripMoney "$1,234.50".data) = some (.rfin false 123450 2 0) := by decide
  simp [clean_currency_value, pyFloatParse, h, realizeRaw, applyExp]
  norm_num

example : natChars 0 = ['0'] := by decide

example : natChars 10 = ['1', '0'] := by decide

example : natChars 137 = ['1', '3', '7'] := by decide

example : normalizeHeaders ["日期".data, [], "日期".data, " 備註 ".data] =
    ["日期".data, "空欄_1".data, "日期_1".data, "備註".data] := by decide

example : normalizeHeaders ["A_1".data, "A".data, "A".data] =
    ["A_1".data, "A".data, "A_1".data] := by decide

example : normalizeHeaders ["空欄".data, [], "空欄".data] =
    ["空欄".data, "空欄_1".data, "空欄_1".data] := by decide

/-- Dropping a leading segment does nothing when no element of the list
satisfies the predicate. -/
lemma dropWhile_eq_self_of_none {p : Char → Bool} {s : Str}
    (h : ∀ c ∈ s, p c = false) : s.dropWhile p = s := by
  cases s with
  | nil => rfl
  | cons c t => simp [List.dropWhile, h c (by simp)]

/-- `pyStrip` does nothing to a string with no whitespace. -/
lemma pyStrip_eq_self {s : Str} (h : ∀ c ∈ s, isPySpace c = false) :
    pyStrip s = s := by
  unfold pyStrip
  rw [dropWhile_eq_self_of_none h, dropWhile_eq_self_of_none, List.reverse_reverse]
  intro c hc
  exact h c (List.mem_reverse.mp hc)

/-- Characters surviving `stripMoney` are in particular not whitespace. -/
lemma stripMoney_no_space {s : Str} : ∀ c ∈ stripMoney s, isPySpace c = false := by
  intro c hc
  have h := List.of_mem_filter hc
  simp only [isStrippedCh, Bool.not_eq_true', Bool.or_eq_false_iff] at h
  exact h.2

/-- A Unicode decimal digit has value below ten. -/
lemma unicodeDigitVal_lt {c : Char} {d : ℕ} (h : unicodeDigitVal c = some d) : d < 10 := by
  unfold unicodeDigitVal at h
  rcases Option.map_eq_some'.mp h with ⟨s, hs, rfl⟩
  have hp := List.find?_some hs
  simp only [Bool.and_eq_true, decide_eq_true_eq] at hp
  omega

/-- The decimal-and-space transform sends non-whitespace characters to
non-whitespace characters. -/
lemma pyDecimalTransform_not_space {c : Char} (h : isPySpace c = false) :
    isPySpace (pyDecimalTransform c) = false := by
  unfold pyDecimalTransform
  rw [h]
  simp only [Bool.false_eq_true, if_false]
  cases hd : unicodeDigitVal c with
  | some d =>
    have hd10 : d < 10 := unicodeDigitVal_lt hd
    show isPySpace (Char.ofNat (d + 48)) = false
    interval_cases d <;> decide
  | none =>
    by_cases hc : c.toNat < 128
    · simpa [hc] using h
    · simp only [hc, if_false]
      decide

/-- C10: because Python's `bool` is a subtype of `int`, the
`isinstance(val, (int, float))` test accepts booleans, so the coercer maps
`True` to `1.0` and `False` to `0.0` through the numeric branch instead of
the degrade-to-zero fallback for other types. -/
theorem C10_bool_coerced_as_number :
    clean_currency_value (.boolV true) = .finite 1 ∧
    clean_currency_value (.boolV false) = .finite 0 := by
  exact ⟨rfl, rfl⟩

/-- C8: the value coercer is idempotent — an already-numeric input is
returned unchanged as a float, so `coerce (coerce x) = coerce x` for every
input; concretely `"$1,234.50"` coerces to `1234.50`, `"-200"` to
`-200.0`, and the numeric `1500` to `1500.0`. -/
theorem C8_value_coercer_idempotent :
    (∀ v : PyVal,
      clean_currency_value (.floatV (clean_currency_value v)) = clean_currency_value v) ∧
    clean_currency_value (.strV "$1,234.50".data) = .finite (2469 / 2) ∧
    clean_currency_value (.strV "-200".data) = .finite (-200) ∧
    clean_currency_value (.intV 1500) = .finite 1500 := by
  refine ⟨fun v => rfl, ?_, ?_, ?_⟩
  · have h : pyFloatParseRaw (stripMoney "$1,234.50".data) = some (.rfin false 123450 2 0) := by
      decide
    simp [clean_currency_value, pyFloatParse, h, realizeRaw, applyExp]
    norm_num
  · have h : pyFloatParseRaw (stripMoney "-200".data) = some (.rfin true 200 0 0) := by
      decide
    simp [clean_currency_value, pyFloatParse, h, realizeRaw, applyExp]
  · norm_num [clean_currency_value]

/-- C7: for transaction input with nonnegative price, amount and fee, the
row builder emits the 10-field positional row with the date, category,
amount, price and fee in positions 0, 2, 3, 4, 6, empty placeholders in
positions 1, 5, 7, 8, and the computed unit count in position 9, where the
unit count is `(amount - fee) / price` for a buy at positive price,
`amount / price` for a non-buy at positive price, and `0.0` at price
zero. -/
theorem C7_row_builder (dateStr transType : Str) (price amount fee : ℚ)
    (hp : 0 ≤ price) (ha : 0 ≤ amount) (hf : 0 ≤ fee) :
    new_row dateStr transType price amount fee =
      [.text dateStr, .text [], .text transType, .num amount, .num price, .text [],
        .num fee, .text [], .text [], .num (est_units transType price amount fee)] ∧
    (0 < price → transType = buyLabel →
      est_units transType price amount fee = (amount - fee) / price) ∧
    (0 < price → transType ≠ buyLabel →
      est_units transType price amount fee = amount / price) ∧
    (price = 0 → est_units transType price amount fee = 0) := by
  refine ⟨rfl, ?_, ?_, ?_⟩
  · intro h0 hb
    simp [est_units, h0, hb]
  · intro h0 hb
    simp [est_units, h0, hb]
  · intro h0
    simp [est_units, h0]

/-- Witness for C7 at the spec's own examples: a buy of amount 105 with
fee 5 at price 10 yields 10 units, and a sell of amount 100 with fee 5 at
price 10 yields 10 units (fee ignored). -/
theorem C7_row_builder_witness :
    est_units buyLabel 10 105 5 = 10 ∧ est_units "賣出".data 10 100 5 = 10 := by
  constructor
  · rw [(C7_row_builder [] buyLabel 10 105 5 (by norm_num) (by norm_num)
      (by norm_num)).2.1 (by norm_num) rfl]
    norm_num
  · rw [(C7_row_builder [] "賣出".data 10 100 5 (by norm_num) (by norm_num)
      (by norm_num)).2.2.1 (by norm_num) (by decide)]
    norm_num

/-- C3 counterexample: the code computes the return ratio as a percentage
(`total_profit / total_cost * 100`), so on a group with total value 2 and
total profit 1 it yields 100, not the claimed
`totalProfit / (totalValue − totalProfit) = 1`. -/
theorem C3_return_ratio_counterexample :
    roi c3Example = 100 ∧ derivedReturnRatioSpec c3Example = 1 ∧
    roi c3Example ≠ derivedReturnRatioSpec c3Example := by
  norm_num [roi, derivedReturnRatioSpec, total_cost, total_assets, total_profit, c3Example]

/-- C3 amended: the code's derived return ratio is one hundred times the
spec's quotient — `roi = 100 · totalProfit / (totalValue − totalProfit)`
when the denominator is non-zero, and the sentinel zero (= 100 · 0)
otherwise. -/
theorem C3_return_ratio_amended (recs : List SummaryRecord) :
    roi recs = 100 * derivedReturnRatioSpec recs := by
  unfold roi derivedReturnRatioSpec total_cost
  by_cases h : total_assets recs - total_profit recs = 0
  · simp [h]
  · simp only [h, ne_eq, not_false_eq_true, if_true]
    ring

/-- C5: the value coercer is total and degrades instead of raising — a
string has every `$`, `,` and whitespace character removed from anywhere
in it and the residual parsed; a leading minus sign survives the stripping
and negates the parsed value; an unparseable residual (such as `"--"`)
and a non-numeric, non-string input both return `0.0`. -/
theorem C5_value_coercer :
    (∀ s ds q, (stripMoney s).map pyDecimalTransform = '-' :: ds →
      underscoresOk ('-' :: ds) = true →
      parseDecimal (ds.filter (fun c => c ≠ '_')) = some q →
      clean_currency_value (.strV s) = .finite (-q)) ∧
    (∀ s, pyFloatParse (stripMoney s) = none →
      clean_currency_value (.strV s) = .finite 0) ∧
    clean_currency_value (.strV "--".data) = .finite 0 ∧
    clean_currency_value (.strV " $1 ,23,4.5 0 ".data) = .finite (2469 / 2) ∧
    clean_currency_value (.strV "１２３".data) = .finite 123 ∧
    clean_currency_value (.strV "١٢٣".data) = .finite 123 ∧
    clean_currency_value .noneV = .finite 0 := by
  refine ⟨?_, ?_, ?_, ?_, ?_, ?_, rfl⟩
  · intro s ds q hs hu hq
    have hns : pyStrip ('-' :: ds) = '-' :: ds := by
      apply pyStrip_eq_self
      intro c hc
      rw [← hs] at hc
      rcases List.mem_map.mp hc with ⟨c0, hc0, rfl⟩
      exact pyDecimalTransform_not_space (stripMoney_no_space c0 hc0)
    obtain ⟨v, hv, hqv⟩ := Option.map_eq_some'.mp hq
    simp only [clean_currency_value, pyFloatParse, pyFloatParseRaw, hs, hns, hu, if_true]
    have hfil : ('-' :: ds).filter (fun c => c ≠ '_') = '-' :: ds.filter (fun c => c ≠ '_') := by
      simp
    rw [hfil]
    simp only [parseSignedRaw, hv, Option.map_some', realizeRaw]
    rw [← hqv]
    norm_num
  · intro s h
    simp [clean_currency_value, h]
  · have h : pyFloatParseRaw (stripMoney "--".data) = none := by decide
    simp [clean_currency_value, pyFloatParse, h]
  · have h : pyFloatParseRaw (stripMoney " $1 ,23,4.5 0 ".data) =
        some (.rfin false 123450 2 0) := by decide
    simp [clean_currency_value, pyFloatParse, h, realizeRaw, applyExp]
    norm_num
  · have h : pyFloatParseRaw (stripMoney "１２３".data) = some (.rfin false 123 0 0) := by
      decide
    simp [clean_currency_value, pyFloatParse, h, realizeRaw, applyExp]
  · have h : pyFloatParseRaw (stripMoney "١٢٣".data) = some (.rfin false 123 0 0) := by
      decide
    simp [clean_currency_value, pyFloatParse, h, realizeRaw, applyExp]

/-- Witness for C5 at concrete inputs: the negative currency string
`"-1,234.50"` coerces to `-1234.50`, and the symbolic garbage `"--"`
(whose residual does not parse) coerces to `0.0`. -/
theorem C5_value_coercer_witness :
    clean_currency_value (.strV "-1,234.50".data) = .finite (-(2469 / 2)) ∧
    clean_currency_value (.strV "--".data) = .finite 0 := by
  constructor
  · apply C5_value_coercer.1 "-1,234.50".data "1234.50".data (2469 / 2)
    · decide
    · decide
    · have h2 : ("1234.50".data.filter (fun c => c ≠ '_')) = "1234.50".data := by decide
      have h : parseDecimalRaw "1234.50".data = some (123450, 2, 0) := by decide
      rw [h2]
      unfold parseDecimal
      rw [h]
      simp only [Option.map_some']
      norm_num [applyExp]
      rw [show Int.toNat 2 = 2 from rfl]
      norm_num
  · apply C5_value_coercer.2.1
    have h : pyFloatParseRaw (stripMoney "--".data) = none := by decide
    simp [pyFloatParse, h]

/-- `leadsWith` means: the haystack starts with the needle. -/
lemma leadsWith_iff (n : Str) : ∀ h : Str, leadsWith n h = true ↔ ∃ post, h = n ++ post := by
  induction n with
  | nil =>
    intro h
    simp [leadsWith]
  | cons a as ih =>
    intro h
    cases h with
    | nil => simp [leadsWith]
    | cons b bs =>
      simp only [leadsWith, Bool.and_eq_true, beq_iff_eq, ih bs]
      constructor
      · rintro ⟨rfl, post, rfl⟩
        exact ⟨post, rfl⟩
      · rintro ⟨post, hpost⟩
        rw [List.cons_append] at hpost
        injection hpost with h1 h2
        exact ⟨h1.symm, post, h2⟩

/-- Python's `in` means contiguous containment: the haystack splits as
front part, needle, tail part. -/
lemma pyIn_iff (n : Str) : ∀ h : Str, pyIn n h = true ↔ ∃ pre post, h = pre ++ n ++ post := by
  intro h
  induction h with
  | nil =>
    simp only [pyIn, List.isEmpty_iff]
    constructor
    · rintro rfl
      exact ⟨[], [], rfl⟩
    · rintro ⟨pre, post, hsplit⟩
      rcases List.append_eq_nil.mp (List.append_eq_nil.mp hsplit.symm).1 with ⟨-, h2⟩
      exact h2
  | cons c t ih =>
    simp only [pyIn, Bool.or_eq_true, leadsWith_iff, ih]
    constructor
    · rintro (⟨post, hpost⟩ | ⟨pre, post, hsplit⟩)
      · exact ⟨[], post, by simp [hpost]⟩
      · exact ⟨c :: pre, post, by simp [hsplit]⟩
    · rintro ⟨pre, post, hsplit⟩
      cases pre with
      | nil => exact Or.inl ⟨post, by simpa using hsplit⟩
      | cons d pre2 =>
        right
        rw [List.cons_append, List.cons_append] at hsplit
        injection hsplit with h1 h2
        exact ⟨pre2, post, by simp [h2]⟩

/-- Scanning from base `b + 1` yields exactly the scan from base `b`,
shifted by one. -/
lemma findFirstIdx_shift (p : Str → Bool) :
    ∀ (l : List Str) (b : ℕ),
      findFirstIdx p l (b + 1) = (findFirstIdx p l b).map (· + 1) := by
  intro l
  induction l with
  | nil => intro b; rfl
  | cons h t ih =>
    intro b
    by_cases hp : p h
    · simp [findFirstIdx, hp]
    · simp only [findFirstIdx, hp, if_false]
      exact ih (b + 1)

/-- The resolved index is in range, its header matches, and no earlier
header matches: first match wins. -/
lemma findFirstIdx_spec (p : Str → Bool) :
    ∀ (l : List Str) (i : ℕ), findFirstIdx p l 0 = some i →
      ∃ hi : i < l.length, p (l.get ⟨i, hi⟩) = true ∧
        ∀ j (hj : j < l.length), j < i → p (l.get ⟨j, hj⟩) = false := by
  intro l
  induction l with
  | nil => intro i h; simp [findFirstIdx] at h
  | cons hd t ih =>
    intro i h
    by_cases hp : p hd
    · simp only [findFirstIdx, hp, if_true, Option.some.injEq] at h
      subst h
      exact ⟨by simp, hp, fun j hj hji => absurd hji (Nat.not_lt_zero j)⟩
    · simp only [findFirstIdx, hp, if_false] at h
      rw [findFirstIdx_shift] at h
      rcases Option.map_eq_some'.mp h with ⟨i0, hi0, rfl⟩
      rcases ih i0 hi0 with ⟨hlt, hmatch, hearlier⟩
      refine ⟨by simpa using Nat.succ_lt_succ hlt, hmatch, ?_⟩
      intro j hj hji
      cases j with
      | zero => simpa using hp
      | succ j0 =>
        exact hearlier j0 (by simpa using hj) (Nat.lt_of_succ_lt_succ hji)

/-- `[c for c in columns if p(c)][0]` is the header sitting at the
first-match index. -/
lemma find?_eq_findFirstIdx (p : Str → Bool) :
    ∀ l : List Str, l.find? p = (findFirstIdx p l 0).bind (l.get? ·) := by
  intro l
  induction l with
  | nil => rfl
  | cons hd t ih =>
    by_cases hp : p hd
    · simp [List.find?_cons_of_pos, hp, findFirstIdx]
    · rw [List.find?_cons_of_neg _ (by simpa using hp)]
      simp only [findFirstIdx, hp, if_false]
      rw [findFirstIdx_shift, ih]
      cases hfi : findFirstIdx p t 0 with
      | none => rfl
      | some i => simp

/-- C6: a header matches a role exactly when it contains every required
substring of that role (containment, not equality; the currency role
accepts either of its two language variants), the lowest matching index
wins for each role independently, and on the example header row the name,
value, profit and currency roles resolve to indices 0, 1, 2, 3. -/
theorem C6_resolver_matching :
    (∀ h, namePred h = true ↔ ∃ pre post, h = pre ++ "基金名稱".data ++ post) ∧
    (∀ h, valPred h = true ↔
      ((∃ pre post, h = pre ++ "總現值".data ++ post) ∧
       (∃ pre post, h = pre ++ "含息".data ++ post))) ∧
    (∀ h, profitPred h = true ↔
      ((∃ pre post, h = pre ++ "損益".data ++ post) ∧
       (∃ pre post, h = pre ++ "含息".data ++ post))) ∧
    (∀ h, currPred h = true ↔
      ((∃ pre post, h = pre ++ "幣別".data ++ post) ∨
       (∃ pre post, h = pre ++ "Currency".data ++ post))) ∧
    (∀ (p : Str → Bool) (headers : List Str) (i : ℕ),
      findFirstIdx p headers 0 = some i →
      ∃ hi : i < headers.length, p (headers.get ⟨i, hi⟩) = true ∧
        ∀ j (hj : j < headers.length), j < i → p (headers.get ⟨j, hj⟩) = false) ∧
    (∀ (p : Str → Bool) (headers : List Str),
      headers.find? p = (findFirstIdx p headers 0).bind (headers.get? ·)) ∧
    findFirstIdx namePred exampleHeaders 0 = some 0 ∧
    findFirstIdx valPred exampleHeaders 0 = some 1 ∧
    findFirstIdx profitPred exampleHeaders 0 = some 2 ∧
    findFirstIdx currPred exampleHeaders 0 = some 3 := by
  refine ⟨?_, ?_, ?_, ?_, findFirstIdx_spec, find?_eq_findFirstIdx, ?_, ?_, ?_, ?_⟩
  · intro h; simp [namePred, pyIn_iff]
  · intro h; simp [valPred, pyIn_iff]
  · intro h; simp [profitPred, pyIn_iff]
  · intro h; simp [currPred, pyIn_iff]
  · decide
  · decide
  · decide
  · decide

/-- Witness for C6: instantiating the first-match characterization on the
example header row binds the value role at index 1, where the header
matches and the single earlier header does not. -/

theorem C6_resolver_matching_witness :
    ∃ hi : 1 < exampleHeaders.length, valPred (exampleHeaders.get ⟨1, hi⟩) = true ∧
      ∀ j (hj : j < exampleHeaders.length), j < 1 →
        valPred (exampleHeaders.get ⟨j, hj⟩) = false :=
  C6_resolver_matching.2.2.2.2.1 valPred exampleHeaders 1 (by decide)

/-- C4 counterexample: the failure report is one fixed message — on the
empty header row the currency role is the first to fail, on the row
`["幣別"]` the value role is, yet the displayed error text is identical in
both cases, so the report does not say which role could not be bound. -/
theorem C4_error_report_counterexample :
    resolveColumns [] = .error ⟨fieldErrorMessage, []⟩ ∧
    resolveColumns ["幣別".data] = .error ⟨fieldErrorMessage, ["幣別".data]⟩ ∧
    firstUnboundRole [] = some .currency ∧
    firstUnboundRole ["幣別".data] = some .value ∧
    (DisplayedError.mk fieldErrorMessage []).message =
      (DisplayedError.mk fieldErrorMessage ["幣別".data]).message := by
  exact ⟨rfl, rfl, by decide, by decide, rfl⟩

/-- C4 amended: whenever some role's scan finds no matching header,
resolution fails with the fixed `IndexError` report — one constant message
(naming all four expected markers but not the failing role) together with
the full list of available headers — and no continuation of the pipeline
runs. -/
theorem C4_resolution_failure (headers : List Str)
    (h : headers.find? currPred = none ∨ headers.find? valPred = none ∨
         headers.find? profitPred = none ∨ headers.find? namePred = none) :
    resolveColumns headers = .error ⟨fieldErrorMessage, headers⟩ ∧
    ∀ (f : ResolvedCols → Except DisplayedError (List SummaryRecord)),
      (resolveColumns headers >>= f) = .error ⟨fieldErrorMessage, headers⟩ := by
  have h1 : resolveColumns headers = .error ⟨fieldErrorMessage, headers⟩ := by
    cases hc : headers.find? currPred with
    | none => simp [resolveColumns, hc]
    | some c =>
      cases hv : headers.find? valPred with
      | none => simp [resolveColumns, hc, hv]
      | some v =>
        cases hpp : headers.find? profitPred with
        | none => simp [resolveColumns, hc, hv, hpp]
        | some p =>
          cases hn : headers.find? namePred with
          | none => simp [resolveColumns, hc, hv, hpp, hn]
          | some n => simp_all
  refine ⟨h1, fun f => ?_⟩
  rw [h1]
  rfl

/-- Witness for C4 on the empty header row: no header matches the currency
role, so resolution reports the fixed message with the (empty) header
list. -/
theorem C4_resolution_failure_witness :
    resolveColumns [] = .error ⟨fieldErrorMessage, []⟩ :=
  (C4_resolution_failure [] (Or.inl (by decide))).1

/-- Inserting is a permutation: the new element joins the list. -/
lemma insertAsc_perm (x : SummaryRecord) : ∀ l, insertAsc x l ~ x :: l := by
  intro l
  induction l with
  | nil => exact List.Perm.refl _
  | cons y t ih =>
    by_cases h : x.profit < y.profit
    · simp [insertAsc, h]
    · simp only [insertAsc, h, if_false]
      exact (ih.cons y).trans (List.Perm.swap x y t)

/-- Inserting into an ascending list keeps it ascending (on the profit
key). -/
lemma insertAsc_sorted (x : SummaryRecord) :
    ∀ l, l.Sorted (fun a b => a.profit ≤ b.profit) →
      (insertAsc x l).Sorted (fun a b => a.profit ≤ b.profit) := by
  intro l
  induction l with
  | nil => intro _; simp [insertAsc]
  | cons y t ih =>
    intro hs
    rw [List.sorted_cons] at hs
    obtain ⟨hy, ht⟩ := hs
    by_cases h : x.profit < y.profit
    · simp only [insertAsc, h, if_true]
      rw [List.sorted_cons]
      refine ⟨?_, List.sorted_cons.mpr ⟨hy, ht⟩⟩
      intro b hb
      rcases List.mem_cons.mp hb with rfl | hb
      · exact le_of_lt h
      · exact (le_of_lt h).trans (hy b hb)
    · simp only [insertAsc, h, if_false]
      rw [List.sorted_cons]
      refine ⟨?_, ih ht⟩
      intro b hb
      rcases List.mem_cons.mp ((insertAsc_perm x t).mem_iff.mp hb) with rfl | hb
      · exact le_of_not_lt h
      · exact hy b hb

/-- In an ascending list the insert lands after every element with an
equal key: the elements of any one profit value, after the insert, are the
old ones followed by the new one. -/
lemma insertAsc_filter (x : SummaryRecord) (p : ℚ) :
    ∀ l, l.Sorted (fun a b => a.profit ≤ b.profit) →
      (insertAsc x l).filter (fun r => decide (r.profit = p)) =
        l.filter (fun r => decide (r.profit = p)) ++ (if x.profit = p then [x] else []) := by
  intro l
  induction l with
  | nil =>
    intro _
    by_cases hx : x.profit = p <;> simp [insertAsc, List.filter_cons, hx]
  | cons y t ih =>
    intro hs
    rw [List.sorted_cons] at hs
    obtain ⟨hy, ht⟩ := hs
    by_cases h : x.profit < y.profit
    · simp only [insertAsc, h, if_true]
      by_cases hx : x.profit = p
      · have hnone : (y :: t).filter (fun r => decide (r.profit = p)) = [] := by
          rw [List.filter_eq_nil_iff]
          intro a ha
          have hya : y.profit ≤ a.profit := by
            rcases List.mem_cons.mp ha with rfl | ha
            · exact le_refl _
            · exact hy a ha
          have : p < a.profit := lt_of_lt_of_le (hx ▸ h) hya
          simp [ne_of_gt this]
        rw [List.filter_cons, hnone]
        simp [hx]
      · rw [List.filter_cons]
        simp [hx]
    · simp only [insertAsc, h, if_false, List.filter_cons]
      rw [ih ht]
      by_cases hyp : y.profit = p <;> simp [hyp]

/-- Invariant of the insertion fold: starting from a sorted accumulator it
stays sorted, permutes the accumulated and remaining elements, and, on
each profit value, appends the new elements behind the accumulated ones in
original order. -/
lemma argsortAsc_fold_spec :
    ∀ (l acc : List SummaryRecord), acc.Sorted (fun a b => a.profit ≤ b.profit) →
      (List.foldl (fun a x => insertAsc x a) acc l).Sorted (fun a b => a.profit ≤ b.profit) ∧
      (List.foldl (fun a x => insertAsc x a) acc l) ~ acc ++ l ∧
      ∀ p, (List.foldl (fun a x => insertAsc x a) acc l).filter (fun r => decide (r.profit = p)) =
        acc.filter (fun r => decide (r.profit = p)) ++ l.filter (fun r => decide (r.profit = p)) := by
  intro l
  induction l with
  | nil =>
    intro acc hacc
    exact ⟨hacc, by simp, fun p => by simp⟩
  | cons x t ih =>
    intro acc hacc
    have hstep := ih (insertAsc x acc) (insertAsc_sorted x acc hacc)
    obtain ⟨hsort, hperm, hfil⟩ := hstep
    refine ⟨hsort, ?_, ?_⟩
    · calc List.foldl (fun a x => insertAsc x a) (insertAsc x acc) t
          ~ insertAsc x acc ++ t := hperm
        _ ~ (x :: acc) ++ t := (insertAsc_perm x acc).append_right t
        _ = x :: (acc ++ t) := rfl
        _ ~ acc ++ x :: t := List.perm_middle.symm
    · intro p
      rw [List.foldl_cons, hfil p, insertAsc_filter x p acc hacc, List.filter_cons]
      by_cases hx : x.profit = p <;> simp [hx]

/-- Behaviour of the modelled descending sort (exact for frames of at
most 16 rows, where numpy's default argsort is its stable insertion
sort): the ranking is a permutation of the records sorted by profit
descending, and within each profit value the original relative order is
preserved — the two reversals of pandas's `nargsort` bracket the stable
ascending sort and cancel on ties.  Tie order on longer frames depends
on numpy's introsort and is not settled by this model. -/
lemma sort_values_desc_spec (l : List SummaryRecord) :
    sort_values_desc l ~ l ∧
    (sort_values_desc l).Sorted (fun a b => b.profit ≤ a.profit) ∧
    ∀ p, (sort_values_desc l).filter (fun r => decide (r.profit = p)) =
      l.filter (fun r => decide (r.profit = p)) := by
  obtain ⟨hsort, hperm, hfil⟩ := argsortAsc_fold_spec l.reverse [] (by simp)
  refine ⟨?_, ?_, ?_⟩
  · unfold sort_values_desc
    have h1 : argsortAsc l.reverse ~ l.reverse := by
      unfold argsortAsc
      simpa using hperm
    exact (List.reverse_perm _).trans (h1.trans (List.reverse_perm l))
  · unfold sort_values_desc argsortAsc
    rw [List.Sorted, List.pairwise_reverse]
    exact hsort
  · intro p
    unfold sort_values_desc argsortAsc
    rw [List.filter_reverse, hfil p]
    simp [List.filter_reverse]

/-- `pandasUniqueAux` emits exactly the values that occur and were not
already seen. -/
lemma mem_pandasUniqueAux :
    ∀ (l seen : List Str) (x : Str),
      x ∈ pandasUniqueAux seen l ↔ (x ∈ l ∧ x ∉ seen) := by
  intro l
  induction l with
  | nil => intro seen x; simp [pandasUniqueAux]
  | cons c t ih =>
    intro seen x
    by_cases hc : c ∈ seen
    · rw [pandasUniqueAux]
      simp only [hc, if_true, ih, List.mem_cons]
      constructor
      · rintro ⟨h1, h2⟩
        exact ⟨Or.inr h1, h2⟩
      · rintro ⟨h1, h2⟩
        refine ⟨h1.resolve_left ?_, h2⟩
        rintro rfl
        exact h2 hc
    · rw [pandasUniqueAux]
      simp only [hc, if_false, List.mem_cons, ih]
      constructor
      · rintro (rfl | ⟨h1, h2⟩)
        · exact ⟨Or.inl rfl, hc⟩
        · exact ⟨Or.inr h1, fun hx => h2 (Or.inr hx)⟩
      · rintro ⟨rfl | h1, h2⟩
        · exact Or.inl rfl
        · by_cases hxc : x = c
          · exact Or.inl hxc
          · exact Or.inr ⟨h1, by simp [hxc, h2]⟩

/-- `pandasUniqueAux` never emits a value twice. -/
lemma nodup_pandasUniqueAux : ∀ (l seen : List Str), (pandasUniqueAux seen l).Nodup := by
  intro l
  induction l with
  | nil => intro seen; simp [pandasUniqueAux]
  | cons c t ih =>
    intro seen
    by_cases hc : c ∈ seen
    · rw [pandasUniqueAux]
      simp only [hc, if_true]
      exact ih seen
    · rw [pandasUniqueAux]
      simp only [hc, if_false, List.nodup_cons]
      refine ⟨fun hmem => ?_, ih (c :: seen)⟩
      have := (mem_pandasUniqueAux t (c :: seen) c).mp hmem
      exact this.2 (List.mem_cons_self c seen)

/-- Summing a pointwise sum of two maps splits. -/
lemma sum_map_add {α : Type} (f g : α → ℚ) :
    ∀ cs : List α, (cs.map (fun c => f c + g c)).sum = (cs.map f).sum + (cs.map g).sum := by
  intro cs
  induction cs with
  | nil => simp
  | cons c t ih => simp [ih]; ring

/-- A one-point summand vanishes over a list avoiding the point. -/
lemma sum_map_ite_zero (x : Str) (a : ℚ) :
    ∀ cs : List Str, x ∉ cs →
      (cs.map (fun c => if x = c then a else 0)).sum = 0 := by
  intro cs
  induction cs with
  | nil => intro _; simp
  | cons c t ih =>
    intro hx
    have hxc : x ≠ c := fun h => hx (h ▸ List.mem_cons_self c t)
    have hxt : x ∉ t := fun h => hx (List.mem_cons_of_mem c h)
    simp [hxc, ih hxt]

/-- A one-point summand over a duplicate-free list containing the point
sums to its value. -/
lemma sum_map_ite_single (x : Str) (a : ℚ) :
    ∀ cs : List Str, cs.Nodup → x ∈ cs →
      (cs.map (fun c => if x = c then a else 0)).sum = a := by
  intro cs
  induction cs with
  | nil => intro _ h; simp at h
  | cons c t ih =>
    intro hnd hmem
    rw [List.nodup_cons] at hnd
    by_cases hxc : x = c
    · subst hxc
      simp [sum_map_ite_zero x a t hnd.1]
    · have hxt : x ∈ t := (List.mem_cons.mp hmem).resolve_left hxc
      simp [hxc, ih hnd.2 hxt]

/-- Filtering a group out of one more record keeps or drops the new head
according to its currency. -/
lemma currencyGroup_cons (r : SummaryRecord) (t : List SummaryRecord) (c : Str) :
    currencyGroup (r :: t) c =
      if r.currency = c then r :: currencyGroup t c else currencyGroup t c := by
  by_cases h : r.currency = c <;> simp [currencyGroup, List.filter_cons, h]

/-- Total value of one more record. -/
lemma total_assets_cons (r : SummaryRecord) (t : List SummaryRecord) :
    total_assets (r :: t) = r.value + total_assets t := by
  simp [total_assets]

/-- Any duplicate-free list of currencies covering the records partitions
the grand total of values. -/
lemma partition_sum (cs : List Str) (hnd : cs.Nodup) :
    ∀ recs : List SummaryRecord, (∀ r ∈ recs, r.currency ∈ cs) →
      (cs.map (fun c => total_assets (currencyGroup recs c))).sum = total_assets recs := by
  intro recs
  induction recs with
  | nil => intro _; simp [currencyGroup, total_assets]
  | cons r t ih =>
    intro hcov
    have hmem : r.currency ∈ cs := hcov r (List.mem_cons_self r t)
    have hcovt : ∀ x ∈ t, x.currency ∈ cs := fun x hx => hcov x (List.mem_cons_of_mem r hx)
    have hsplit : ∀ c, total_assets (currencyGroup (r :: t) c) =
        (if r.currency = c then r.value else 0) + total_assets (currencyGroup t c) := by
      intro c
      rw [currencyGroup_cons]
      by_cases h : r.currency = c <;> simp [h, total_assets_cons]
    calc (cs.map (fun c => total_assets (currencyGroup (r :: t) c))).sum
        = (cs.map (fun c => (if r.currency = c then r.value else 0) +
            total_assets (currencyGroup t c))).sum := by
          exact congrArg List.sum (List.map_congr_left (fun c _ => hsplit c))
      _ = (cs.map (fun c => if r.currency = c then r.value else 0)).sum +
            (cs.map (fun c => total_assets (currencyGroup t c))).sum :=
          sum_map_add _ _ cs
      _ = r.value + total_assets t := by
          rw [sum_map_ite_single r.currency r.value cs hnd hmem, ih hcovt]
      _ = total_assets (r :: t) := (total_assets_cons r t).symm

/-- C9: the currency grouping partitions the grand total — summing the
per-group total values over the distinct currencies (first-seen order)
gives exactly the total value over all records, hence in particular agrees
within the 1e-9 tolerance; and the group of a single-record input carries
that record's profit and has one member. -/
theorem C9_grouping_partitions_total :
    (∀ recs : List SummaryRecord,
      ((uniqueCurrencies recs).map (fun c => total_assets (currencyGroup recs c))).sum =
        total_assets recs ∧
      |((uniqueCurrencies recs).map (fun c => total_assets (currencyGroup recs c))).sum -
        total_assets recs| ≤ 1 / 1000000000) ∧
    (∀ r : SummaryRecord,
      currencyGroup [r] r.currency = [r] ∧
      total_profit (currencyGroup [r] r.currency) = r.profit ∧
      (currencyGroup [r] r.currency).length = 1) := by
  constructor
  · intro recs
    have hcover : ∀ r ∈ recs, r.currency ∈ uniqueCurrencies recs := by
      intro r hr
      rw [uniqueCurrencies, mem_pandasUniqueAux]
      exact ⟨List.mem_map_of_mem SummaryRecord.currency hr, by simp⟩
    have heq := partition_sum (uniqueCurrencies recs)
      (nodup_pandasUniqueAux (recs.map SummaryRecord.currency) []) recs hcover
    refine ⟨heq, ?_⟩
    rw [heq, sub_self, abs_zero]
    norm_num
  · intro r
    have hgrp : currencyGroup [r] r.currency = [r] := by
      simp [currencyGroup]
    exact ⟨hgrp, by rw [hgrp]; simp [total_profit], by rw [hgrp]; rfl⟩

/-- Code point of a digit character built from a digit value. -/
lemma char_ofNat_digit_toNat (r : ℕ) (h : r < 10) : (Char.ofNat (r + 48)).toNat = r + 48 := by
  interval_cases r <;> decide

/-- Digit characters are not the underscore. -/
lemma char_ofNat_digit_ne_underscore (r : ℕ) (h : r < 10) : Char.ofNat (r + 48) ≠ '_' := by
  interval_cases r <;> decide

/-- Every character produced by `natCharsAux` is a decimal digit
character. -/
lemma natCharsAux_mem (fuel : ℕ) :
    ∀ n, ∀ c ∈ natCharsAux fuel n, ∃ r, r < 10 ∧ c = Char.ofNat (r + 48) := by
  induction fuel with
  | zero => intro n c hc; simp [natCharsAux] at hc
  | succ f ih =>
    intro n c hc
    cases n with
    | zero => simp [natCharsAux] at hc
    | succ m =>
      rw [natCharsAux] at hc
      rcases List.mem_append.mp hc with hc | hc
      · exact ih _ c hc
      · rw [List.mem_singleton] at hc
        exact ⟨(m + 1) % 10, Nat.mod_lt _ (by norm_num), hc⟩

/-- Appending one digit multiplies the value by ten and adds the digit. -/
lemma digitsToNat_append_one (l : Str) (c : Char) :
    digitsToNat (l ++ [c]) = 10 * digitsToNat l + digitVal c := by
  simp [digitsToNat, List.foldl_append]

/-- `natCharsAux` writes `n` in decimal: reading the digits back yields
`n`, for sufficient fuel. -/
lemma digitsToNat_natCharsAux :
    ∀ (fuel n : ℕ), n ≤ fuel → digitsToNat (natCharsAux fuel n) = n := by
  intro fuel
  induction fuel with
  | zero =>
    intro n hn
    interval_cases n
    rfl
  | succ f ih =>
    intro n hn
    cases n with
    | zero => rfl
    | succ m =>
      rw [natCharsAux, digitsToNat_append_one]
      have hdiv : (m + 1) / 10 ≤ f :=
        Nat.le_of_lt_succ (lt_of_lt_of_le (Nat.div_lt_self (Nat.succ_pos m) (by norm_num)) hn)
      rw [ih _ hdiv]
      have hr : (m + 1) % 10 < 10 := Nat.mod_lt _ (by norm_num)
      have hd : digitVal (Char.ofNat ((m + 1) % 10 + 48)) = (m + 1) % 10 := by
        unfold digitVal
        rw [char_ofNat_digit_toNat _ hr]
        omega
      rw [hd]
      exact Nat.div_add_mod (m + 1) 10

/-- Reading back the decimal digit string of `n` yields `n`. -/
lemma digitsToNat_natChars (n : ℕ) : digitsToNat (natChars n) = n := by
  unfold natChars
  by_cases h : n = 0
  · simp [h]
    rfl
  · simp only [h, if_false]
    exact digitsToNat_natCharsAux n n le_rfl

/-- Decimal digit strings determine the number. -/
lemma natChars_inj {m n : ℕ} (h : natChars m = natChars n) : m = n := by
  have hm := digitsToNat_natChars m
  rw [h, digitsToNat_natChars] at hm
  exact hm.symm

/-- Decimal digit strings never contain an underscore. -/
lemma natChars_no_underscore (n : ℕ) : '_' ∉ natChars n := by
  unfold natChars
  by_cases h : n = 0
  · simp [h]
  · simp only [h, if_false]
    intro hmem
    rcases natCharsAux_mem n n '_' hmem with ⟨r, hr, hc⟩
    exact char_ofNat_digit_ne_underscore r hr hc.symm

/-- Splitting at a separator absent from both leading parts is unique. -/
lemma underscore_sep :
    ∀ (a b d e : Str), '_' ∉ a → '_' ∉ b → a ++ '_' :: d = b ++ '_' :: e →
      a = b ∧ d = e := by
  intro a
  induction a with
  | nil =>
    intro b d e _ hb heq
    cases b with
    | nil =>
      rw [List.nil_append, List.nil_append] at heq
      injection heq with _ h2
      exact ⟨rfl, h2⟩
    | cons y b2 =>
      exfalso
      rw [List.nil_append, List.cons_append] at heq
      injection heq with h1 _
      subst h1
      exact hb (List.mem_cons_self _ b2)
  | cons x a2 ih =>
    intro b d e ha hb heq
    cases b with
    | nil =>
      exfalso
      rw [List.cons_append, List.nil_append] at heq
      injection heq with h1 _
      rw [h1] at ha
      exact ha (List.mem_cons_self '_' a2)
    | cons y b2 =>
      rw [List.cons_append, List.cons_append] at heq
      injection heq with h1 h2
      have hta : '_' ∉ a2 := fun hm => ha (List.mem_cons_of_mem x hm)
      have htb : '_' ∉ b2 := fun hm => hb (List.mem_cons_of_mem y hm)
      obtain ⟨hab, hde⟩ := ih b2 d e hta htb h2
      exact ⟨by rw [h1, hab], hde⟩

/-- The placeholder written as stem-plus-separator. -/
lemma blankName_eq (i : ℕ) : blankName i = ['空', '欄'] ++ '_' :: natChars i := rfl

/-- Placeholders of different positions differ. -/
lemma blankName_inj {k i : ℕ} (h : blankName k = blankName i) : k = i := by
  unfold blankName at h
  injection h with _ h
  injection h with _ h
  injection h with _ h
  exact natChars_inj h

/-- The placeholder contains an underscore. -/
lemma underscore_mem_blankName (i : ℕ) : '_' ∈ blankName i := by
  unfold blankName
  simp

/-- A suffixed name contains an underscore. -/
lemma underscore_mem_suffixedName (n : Str) (k : ℕ) : '_' ∈ suffixedName n k := by
  unfold suffixedName
  simp

/-- A suffixed name is never empty. -/
lemma suffixedName_ne_nil (n : Str) (k : ℕ) : suffixedName n k ≠ [] := by
  simp [suffixedName]

/-- Suffixed names of underscore-free bases determine base and counter. -/
lemma suffixedName_inj {n m : Str} {k j : ℕ} (hn : '_' ∉ n) (hm : '_' ∉ m)
    (h : suffixedName n k = suffixedName m j) : n = m ∧ k = j := by
  unfold suffixedName at h
  obtain ⟨h1, h2⟩ := underscore_sep n m (natChars k) (natChars j) hn hm h
  exact ⟨h1, natChars_inj h2⟩

/-- A suffixed name with an underscore-free base other than the
placeholder stem is never a placeholder. -/
lemma suffixedName_ne_blankName {n : Str} {k j : ℕ} (hn : '_' ∉ n)
    (hne : n ≠ ['空', '欄']) : suffixedName n k ≠ blankName j := by
  intro h
  rw [blankName_eq] at h
  unfold suffixedName at h
  obtain ⟨h1, -⟩ := underscore_sep n ['空', '欄'] (natChars k) (natChars j) hn (by decide) h
  exact hne h1

/-- Step of the normalizer on a blank header not yet in the dictionary:
emit the placeholder and record it with counter zero. -/
lemma normalizeAux_cons_blank_fresh (i : ℕ) (counts : Str → Option ℕ) (h : Str)
    (rest : List Str) (hb : pyStrip h = []) (hc : counts (blankName i) = none) :
    normalizeAux i counts (h :: rest) =
      blankName i ::
        normalizeAux (i + 1) (fun s => if s = blankName i then some 0 else counts s) rest := by
  rw [normalizeAux]
  simp [hb, hc]

/-- Step of the normalizer on a non-blank header seen for the first time:
emit it unchanged and record it with counter zero. -/
lemma normalizeAux_cons_fresh (i : ℕ) (counts : Str → Option ℕ) (h : Str)
    (rest : List Str) (hb : pyStrip h ≠ []) (hc : counts (pyStrip h) = none) :
    normalizeAux i counts (h :: rest) =
      pyStrip h ::
        normalizeAux (i + 1) (fun s => if s = pyStrip h then some 0 else counts s) rest := by
  rw [normalizeAux]
  simp [hb, hc]

/-- Step of the normalizer on a non-blank header already in the
dictionary: bump its counter and emit the suffixed name. -/
lemma normalizeAux_cons_seen (i : ℕ) (counts : Str → Option ℕ) (h : Str)
    (rest : List Str) (k : ℕ) (hb : pyStrip h ≠ []) (hc : counts (pyStrip h) = some k) :
    normalizeAux i counts (h :: rest) =
      suffixedName (pyStrip h) (k + 1) ::
        normalizeAux (i + 1) (fun s => if s = pyStrip h then some (k + 1) else counts s) rest := by
  rw [normalizeAux]
  simp [hb, hc]

/-- The normalizer emits one header per input cell. -/
lemma normalizeAux_length :
    ∀ (rest : List Str) (i : ℕ) (counts : Str → Option ℕ),
      (normalizeAux i counts rest).length = rest.length := by
  intro rest
  induction rest with
  | nil => intro i counts; rfl
  | cons h t ih =>
    intro i counts
    rw [normalizeAux]
    split <;> simp [ih]

/-- The normalizer never emits an empty header. -/
lemma normalizeAux_ne_nil :
    ∀ (rest : List Str) (i : ℕ) (counts : Str → Option ℕ) (o : Str),
      o ∈ normalizeAux i counts rest → o ≠ [] := by
  intro rest
  induction rest with
  | nil => intro i counts o ho; simp [normalizeAux] at ho
  | cons h t ih =>
    intro i counts o ho
    rw [normalizeAux] at ho
    split at ho <;> rcases List.mem_cons.mp ho with rfl | hmem
    · exact suffixedName_ne_nil _ _
    · exact ih (i + 1) _ o hmem
    · by_cases hb : pyStrip h = []
      · simp only [hb, if_pos rfl]
        exact fun hfalse => absurd hfalse (by unfold blankName; simp)
      · simp only [hb, if_neg hb]
        exact hb
    · exact ih (i + 1) _ o hmem

/-- Main invariant of the normalizer: over raw headers whose trimmed text
is underscore-free and not the placeholder stem, and from a dictionary
satisfying the key invariant, the emitted headers are pairwise distinct
and each has one of the three output shapes. -/
lemma normalizeAux_spec :
    ∀ (rest : List Str) (i : ℕ) (counts : Str → Option ℕ),
      (∀ h ∈ rest, '_' ∉ pyStrip h ∧ pyStrip h ≠ ['空', '欄']) →
      CountsInv i counts →
      (normalizeAux i counts rest).Nodup ∧
      ∀ o ∈ normalizeAux i counts rest, OutForm i counts o := by
  intro rest
  induction rest with
  | nil =>
    intro i counts _ _
    exact ⟨by simp [normalizeAux], fun o ho => by simp [normalizeAux] at ho⟩
  | cons h t ih =>
    intro i counts hgood hinv
    obtain ⟨hhu, hhk⟩ := hgood h (List.mem_cons_self h t)
    have hgt : ∀ x ∈ t, '_' ∉ pyStrip x ∧ pyStrip x ≠ ['空', '欄'] :=
      fun x hx => hgood x (List.mem_cons_of_mem h hx)
    by_cases hb : pyStrip h = []
    · have hc : counts (blankName i) = none := by
        cases hcs : counts (blankName i) with
        | none => rfl
        | some v =>
          exfalso
          rcases hinv (blankName i) (by rw [hcs]; rfl) with ⟨-, hnu, -⟩ | ⟨k, hk, heq⟩
          · exact hnu (underscore_mem_blankName i)
          · rw [blankName_inj heq] at hk
            exact Nat.lt_irrefl _ hk
      rw [normalizeAux_cons_blank_fresh i counts h t hb hc]
      have hinv2 : CountsInv (i + 1) (fun s => if s = blankName i then some 0 else counts s) := by
        intro s hs
        by_cases hsb : s = blankName i
        · exact Or.inr ⟨i, Nat.lt_succ_self i, hsb⟩
        · simp only [hsb, if_false] at hs
          rcases hinv s hs with hg | ⟨k, hk, hs2⟩
          · exact Or.inl hg
          · exact Or.inr ⟨k, Nat.lt_succ_of_lt hk, hs2⟩
      obtain ⟨hnd, hforms⟩ := ih (i + 1) _ hgt hinv2
      constructor
      · rw [List.nodup_cons]
        refine ⟨fun hmem => ?_, hnd⟩
        rcases hforms _ hmem with ⟨⟨-, hnu, -⟩, -⟩ | ⟨n, k, hgn, -, heq, -⟩ | ⟨k, hk, heq⟩
        · exact hnu (underscore_mem_blankName i)
        · exact suffixedName_ne_blankName hgn.2.1 hgn.2.2 heq.symm
        · have := blankName_inj heq
          omega
      · intro o ho
        rcases List.mem_cons.mp ho with rfl | hmem
        · exact Or.inr (Or.inr ⟨i, le_refl i, rfl⟩)
        · rcases hforms o hmem with ⟨hg, hnone⟩ | ⟨n, k, hgn, hk1, heq, hlt⟩ | ⟨k, hk, heq⟩
          · left
            refine ⟨hg, ?_⟩
            by_cases ho2 : o = blankName i
            · simp [ho2] at hnone
            · simpa [ho2] using hnone
          · right; left
            refine ⟨n, k, hgn, hk1, heq, fun j hj => hlt j ?_⟩
            have hne : n ≠ blankName i := fun hna => hgn.2.1 (hna ▸ underscore_mem_blankName i)
            simp only [hne, if_false]
            exact hj
          · exact Or.inr (Or.inr ⟨k, Nat.le_of_succ_le hk, heq⟩)
    · have hgn : GoodName (pyStrip h) := ⟨hb, hhu, hhk⟩
      cases hcs : counts (pyStrip h) with
      | some k =>
        rw [normalizeAux_cons_seen i counts h t k hb hcs]
        have hinv2 : CountsInv (i + 1)
            (fun s => if s = pyStrip h then some (k + 1) else counts s) := by
          intro s hs
          by_cases hsn : s = pyStrip h
          · subst hsn
            exact Or.inl hgn
          · simp only [hsn, if_false] at hs
            rcases hinv s hs with hg | ⟨k2, hk2, hs2⟩
            · exact Or.inl hg
            · exact Or.inr ⟨k2, Nat.lt_succ_of_lt hk2, hs2⟩
        obtain ⟨hnd, hforms⟩ := ih (i + 1) _ hgt hinv2
        constructor
        · rw [List.nodup_cons]
          refine ⟨fun hmem => ?_, hnd⟩
          rcases hforms _ hmem with ⟨⟨-, hnu, -⟩, -⟩ | ⟨m, j, hgm, hj1, heq, hlt⟩ | ⟨j, hj, heq⟩
          · exact hnu (underscore_mem_suffixedName (pyStrip h) (k + 1))
          · obtain ⟨hnm, hkj⟩ := suffixedName_inj hgn.2.1 hgm.2.1 heq
            have hcm : (fun s => if s = pyStrip h then some (k + 1) else counts s) m =
                some (k + 1) := by
              simp [← hnm]
            have := hlt (k + 1) hcm
            omega
          · exact suffixedName_ne_blankName hgn.2.1 hgn.2.2 heq
        · intro o ho
          rcases List.mem_cons.mp ho with rfl | hmem
          · right; left
            refine ⟨pyStrip h, k + 1, hgn, Nat.succ_le_succ (Nat.zero_le k), rfl, ?_⟩
            intro j hj
            rw [hcs] at hj
            injection hj with hj
            omega
          · rcases hforms o hmem with ⟨hg, hnone⟩ | ⟨m, j, hgm, hj1, heq, hlt⟩ | ⟨j, hj, heq⟩
            · left
              refine ⟨hg, ?_⟩
              by_cases ho2 : o = pyStrip h
              · simp [ho2] at hnone
              · simpa [ho2] using hnone
            · right; left
              refine ⟨m, j, hgm, hj1, heq, fun j2 hj2 => ?_⟩
              by_cases hmn : m = pyStrip h
              · rw [hmn, hcs] at hj2
                injection hj2 with hj2
                have h2 := hlt (k + 1) (by simp [hmn])
                omega
              · exact hlt j2 (by simp only [hmn, if_false]; exact hj2)
            · exact Or.inr (Or.inr ⟨j, Nat.le_of_succ_le hj, heq⟩)
      | none =>
        rw [normalizeAux_cons_fresh i counts h t hb hcs]
        have hinv2 : CountsInv (i + 1)
            (fun s => if s = pyStrip h then some 0 else counts s) := by
          intro s hs
          by_cases hsn : s = pyStrip h
          · subst hsn
            exact Or.inl hgn
          · simp only [hsn, if_false] at hs
            rcases hinv s hs with hg | ⟨k2, hk2, hs2⟩
            · exact Or.inl hg
            · exact Or.inr ⟨k2, Nat.lt_succ_of_lt hk2, hs2⟩
        obtain ⟨hnd, hforms⟩ := ih (i + 1) _ hgt hinv2
        constructor
        · rw [List.nodup_cons]
          refine ⟨fun hmem => ?_, hnd⟩
          rcases hforms _ hmem with ⟨-, hnone⟩ | ⟨m, j, hgm, hj1, heq, hlt⟩ | ⟨j, hj, heq⟩
          · simp at hnone
          · rw [heq] at hhu
            exact hhu (underscore_mem_suffixedName m j)
          · rw [heq] at hhu
            exact hhu (underscore_mem_blankName j)
        · intro o ho
          rcases List.mem_cons.mp ho with rfl | hmem
          · exact Or.inl ⟨hgn, hcs⟩
          · rcases hforms o hmem with ⟨hg, hnone⟩ | ⟨m, j, hgm, hj1, heq, hlt⟩ | ⟨j, hj, heq⟩
            · left
              refine ⟨hg, ?_⟩
              by_cases ho2 : o = pyStrip h
              · simp [ho2] at hnone
              · simpa [ho2] using hnone
            · right; left
              refine ⟨m, j, hgm, hj1, heq, fun j2 hj2 => ?_⟩
              by_cases hmn : m = pyStrip h
              · rw [hmn, hcs] at hj2
                exact Option.noConfusion hj2
              · exact hlt j2 (by simp only [hmn, if_false]; exact hj2)
            · exact Or.inr (Or.inr ⟨j, Nat.le_of_succ_le hj, heq⟩)

/-- C1 counterexample: on the raw header row `["A_1", "A", "A"]` the
duplicate-suffixing mechanism generates `A_1` for the second `A`, which
collides with the real first header `A_1` — the output is not pairwise
distinct, so the uniqueness guarantee fails as stated. -/
theorem C1_uniqueness_counterexample :
    normalizeHeaders ["A_1".data, "A".data, "A".data] =
      ["A_1".data, "A".data, "A_1".data] ∧
    ¬ (normalizeHeaders ["A_1".data, "A".data, "A".data]).Nodup := by
  exact ⟨by decide, by decide⟩

/-- C1 amended: the header normalizer always preserves the length of the
row and never emits an empty header; the outputs are pairwise distinct
provided no trimmed raw header contains an underscore or equals the
placeholder stem `空欄` — without that proviso a generated suffixed name or
placeholder can collide with a raw header (or with another generated
name). -/
theorem C1_header_normalizer_amended :
    (∀ raw : List Str, (normalizeHeaders raw).length = raw.length) ∧
    (∀ (raw : List Str) (o : Str), o ∈ normalizeHeaders raw → o ≠ []) ∧
    (∀ raw : List Str,
      (∀ h ∈ raw, '_' ∉ pyStrip h ∧ pyStrip h ≠ ['空', '欄']) →
      (normalizeHeaders raw).Nodup) := by
  refine ⟨fun raw => normalizeAux_length raw 0 _,
    fun raw o => normalizeAux_ne_nil raw 0 _ o, ?_⟩
  intro raw hcond
  exact (normalizeAux_spec raw 0 (fun _ => none) hcond (fun s hs => by simp at hs)).1

/-- Witness for C1 on the spec's own example row `["日期", "", "日期",
" 備註 "]`: the normalized headers are pairwise distinct, and the
generated placeholder (a member of the output) is non-empty. -/
theorem C1_header_normalizer_amended_witness :
    (normalizeHeaders ["日期".data, [], "日期".data, " 備註 ".data]).Nodup ∧
    "空欄_1".data ≠ [] := by
  constructor
  · exact C1_header_normalizer_amended.2.2 _ (by decide)
  · exact C1_header_normalizer_amended.2.1 ["日期".data, [], "日期".data, " 備註 ".data]
      "空欄_1".data (by decide)
